import Mathlib

/-!
Verification of `src/file_renamer.py`, a batch file-renaming utility.

The program is a five-stage synchronous pipeline: collect preferences,
list files, preview with confirmation, rename with per-file collision
skipping and OS-error isolation.  The embedding below models
- Python string primitives (`strip`, `lower`, `int`, `endswith`,
  `os.path.splitext`) over `List Char`,
- the interactive input stream as a `List String` of reply lines,
- the target directory's state as the list of entry names (`FS`),
- `os.rename` failures via an `osError` oracle passed to the renamer, and
- each per-file outcome of the rename loop as a `RenameEvent`.

Python integers are arbitrary precision, hence `Int`; every quotient or
remainder the program takes is on non-negative operands, where Lean's
`Int` division agrees with Python's floor division.
-/

namespace FileRenamer

/-- Whitespace characters stripped by Python's `str.strip()` (ASCII range). -/
def isPySpace (c : Char) : Bool :=
  c == ' ' || c == '\t' || c == '\n' || c == '\r' || c == '\x0b' || c == '\x0c'

/-- Python `str.strip()`: drop leading and trailing whitespace. -/
def pyStrip (s : String) : String :=
  String.mk (((s.data.dropWhile isPySpace).reverse.dropWhile isPySpace).reverse)

/-- Python `str.lower()` (ASCII range). -/
def pyLower (s : String) : String :=
  String.mk (s.data.map Char.toLower)

/-- Python `str.endswith(t)`: `t` is a suffix of the string. -/
def pyEndsWith (s t : String) : Bool :=
  t.data.isSuffixOf s.data

/-- Tail of the digit part accepted by Python `int()`: digits with single
underscores allowed between digits. -/
def digitsRest : List Char → Bool
  | [] => true
  | c :: rest =>
    if c == '_' then
      match rest with
      | [] => false
      | c2 :: rest2 => c2.isDigit && digitsRest rest2
    else c.isDigit && digitsRest rest

/-- Digit part accepted by Python `int()`: non-empty, starts with a digit. -/
def digitsOk : List Char → Bool
  | [] => false
  | c :: rest => c.isDigit && digitsRest rest

/-- Numeric value of a digit part, skipping underscores. -/
def digitsVal (l : List Char) : Nat :=
  l.foldl (fun acc c => if c == '_' then acc else acc * 10 + (c.toNat - 48)) 0

/-- Python `int(s)` on a decimal string literal: strips whitespace, then an
optional sign followed by digits (ASCII range); `none` models `ValueError`. -/
def pyInt (s : String) : Option Int :=
  match (pyStrip s).data with
  | '+' :: rest => if digitsOk rest then some (Int.ofNat (digitsVal rest)) else none
  | '-' :: rest => if digitsOk rest then some (-(Int.ofNat (digitsVal rest))) else none
  | t => if digitsOk t then some (Int.ofNat (digitsVal t)) else none

/-- The validated `RenameJob` returned by `get_user_preferences`
 (the Python dict with keys directory, common_name, numbering_style,
 start_index, extension_filter). -/
structure Prefs where
  directory : String
  common_name : String
  numbering_style : Int
  start_index : Int
  extension_filter : String
deriving DecidableEq

/-- Outcome of `get_user_preferences`: a validated job together with the
unconsumed input lines, the `None` returned on an empty common name, or
`blocked` when the input stream runs out inside a re-prompt loop (the
Python process would wait for more input forever). -/
inductive PrefResult where
  | ok (p : Prefs) (rest : List String)
  | validationFailure
  | blocked
deriving DecidableEq

/-- The `while True` menu loop of `get_user_preferences`: keep reading lines
until one parses as an integer equal to 1 or 2. -/
def choiceLoop : List String → Option (Int × List String)
  | [] => none
  | s :: rest =>
    match pyInt s with
    | none => choiceLoop rest
    | some c => if c = 1 ∨ c = 2 then some (c, rest) else choiceLoop rest

/-- The `while True` start-index loop: keep reading lines until one parses as
an integer that is non-negative; a blank line defaults to "1". -/
def startIndexLoop : List String → Option (Int × List String)
  | [] => none
  | s :: rest =>
    match pyInt (if s = "" then "1" else s) with
    | none => startIndexLoop rest
    | some n => if 0 ≤ n then some (n, rest) else startIndexLoop rest

/-- The Preference Collector `get_user_preferences`, reading lines from the
input stream `inputs`; `cwd` stands for `os.getcwd()`. -/
def get_user_preferences (inputs : List String) (cwd : String) : PrefResult :=
  match inputs with
  | dirIn :: nameIn :: rest =>
    let directory := if pyStrip dirIn = "" then cwd else pyStrip dirIn
    let common_name := pyStrip nameIn
    if common_name = "" then PrefResult.validationFailure
    else
      match choiceLoop rest with
      | none => PrefResult.blocked
      | some (choice, rest2) =>
        match startIndexLoop rest2 with
        | none => PrefResult.blocked
        | some (start_index, rest3) =>
          match rest3 with
          | extIn :: rest4 =>
            PrefResult.ok
              (Prefs.mk directory common_name choice start_index (pyLower (pyStrip extIn)))
              rest4
          | [] => PrefResult.blocked
  | _ => PrefResult.blocked

/-- One entry of the target directory as seen by `os.listdir`, with the
`os.path.isfile` verdict for it. -/
structure DirEntry where
  name : String
  isFile : Bool
deriving DecidableEq

/-- Outcome of enumerating the target directory: the entries in enumeration
order, or the `FileNotFoundError` / `PermissionError` conditions. -/
inductive Listing where
  | ok (entries : List DirEntry)
  | dirNotFound
  | permissionDenied
deriving DecidableEq

/-- Dot normalization applied to a non-empty extension filter:
prepend a dot when the filter does not already start with one. -/
def dotNormalize (ef : String) : String :=
  match ef.data with
  | '.' :: _ => ef
  | _ => "." ++ ef

/-- The File Lister `get_files_to_rename`: regular files only, filtered by a
case-insensitive suffix match on the whole filename when a non-empty
extension filter is given; `none` models the `FileNotFoundError` /
`PermissionError` paths, which return Python `None`. -/
def get_files_to_rename (listing : Listing) (extension_filter : String) :
    Option (List String) :=
  match listing with
  | Listing.dirNotFound => none
  | Listing.permissionDenied => none
  | Listing.ok entries =>
    let all_files := (entries.filter (fun e => e.isFile)).map (fun e => e.name)
    if extension_filter ≠ "" then
      some (all_files.filter (fun f => pyEndsWith (pyLower f) (dotNormalize extension_filter)))
    else
      some all_files

/-- The letters `while` loop of `generate_suffix`, with explicit fuel: each
iteration takes `(index - 1) % 26` as the next letter (prepended) and
continues with `(index - 1) / 26`; the loop runs at most `index.toNat`
times because the loop variable stays positive and strictly decreases. -/
def alphaLoopGo : Nat → Int → String
  | 0, _ => ""
  | fuel + 1, index =>
    if 0 < index then
      alphaLoopGo fuel ((index - 1) / 26)
        ++ String.singleton (Char.ofNat (97 + ((index - 1) % 26).toNat))
    else ""

/-- The Suffix Generator `generate_suffix`: the decimal string for style 1,
the lowercase-letters encoding for any other style. -/
def generate_suffix (index : Int) (numbering_style : Int) : String :=
  if numbering_style = 1 then toString index
  else alphaLoopGo index.toNat index

/-- The suffix of `l` that starts at its last `.` character, when `l`
contains a dot. -/
def extAfterLastDot : List Char → Option (List Char)
  | [] => none
  | c :: rest =>
    match extAfterLastDot rest with
    | some e => some e
    | none => if c == '.' then some (c :: rest) else none

/-- Extension component of `os.path.splitext(p)[1]` for a plain filename
 (no path separators): everything from the last dot on, except that a name
whose characters before that dot are all dots has no extension. -/
def splitext_ext (p : String) : String :=
  match extAfterLastDot p.data with
  | none => ""
  | some e =>
    if (p.data.take (p.data.length - e.length)).all (fun c => c == '.') then ""
    else String.mk e

/-- State of the target directory: the names of the entries it contains. -/
structure FS where
  names : List String
deriving DecidableEq

/-- Python `os.path.exists` within the target directory. -/
def FS.pathExists (fs : FS) (n : String) : Bool :=
  fs.names.contains n

/-- Effect of a successful `os.rename` within the target directory. -/
def FS.applyRename (fs : FS) (oldName newName : String) : FS :=
  FS.mk (newName :: fs.names.erase oldName)

/-- Per-file outcome of one iteration of the rename loop: the file was
renamed, skipped because the destination existed (collision warning), or
skipped because `os.rename` raised `OSError` (error report). -/
inductive RenameEvent where
  | renamed (oldName newName : String)
  | collision (oldName newName : String)
  | osFailed (oldName newName : String)
deriving DecidableEq

/-- Source filename an event reports about. -/
def RenameEvent.oldName : RenameEvent → String
  | RenameEvent.renamed o _ => o
  | RenameEvent.collision o _ => o
  | RenameEvent.osFailed o _ => o

/-- Destination filename an event reports about. -/
def RenameEvent.newName : RenameEvent → String
  | RenameEvent.renamed _ n => n
  | RenameEvent.collision _ n => n
  | RenameEvent.osFailed _ n => n

/-- Whether the event is a successful rename. -/
def RenameEvent.isRenamed : RenameEvent → Bool
  | RenameEvent.renamed _ _ => true
  | _ => false

/-- The (old name, new name) pair of an event. -/
def eventPair (e : RenameEvent) : String × String :=
  (e.oldName, e.newName)

/-- The Renamer `rename_files`: enumerate `files` from `start_index`,
compute `{common_name}_{suffix}{extension}`, skip when the destination
already exists, count successful renames, isolate per-file `OSError`
failures (reported by the oracle `osError`), and return the final
directory state, the success count, and the per-file events in order. -/
def rename_files (fs : FS) (osError : String → String → Bool) (files : List String)
    (common_name : String) (numbering_style : Int) (start_index : Int) :
    FS × Nat × List RenameEvent :=
  match files with
  | [] => (fs, 0, [])
  | filename :: rest =>
    let file_extension := splitext_ext filename
    let suffix := generate_suffix start_index numbering_style
    let new_filename := common_name ++ "_" ++ suffix ++ file_extension
    if fs.pathExists new_filename then
      let r := rename_files fs osError rest common_name numbering_style (start_index + 1)
      (r.1, r.2.1, RenameEvent.collision filename new_filename :: r.2.2)
    else if osError filename new_filename then
      let r := rename_files fs osError rest common_name numbering_style (start_index + 1)
      (r.1, r.2.1, RenameEvent.osFailed filename new_filename :: r.2.2)
    else
      let r := rename_files (fs.applyRename filename new_filename) osError rest
        common_name numbering_style (start_index + 1)
      (r.1, r.2.1 + 1, RenameEvent.renamed filename new_filename :: r.2.2)

/-- The preview loop of `preview_changes`, which recomputes the suffix and
extension for each listed file exactly as the Renamer does. -/
def preview_loop (files : List String) (common_name : String)
    (numbering_style start_index : Int) : List (String × String) :=
  match files with
  | [] => []
  | filename :: rest =>
    (filename,
      common_name ++ "_" ++ generate_suffix start_index numbering_style
        ++ splitext_ext filename)
      :: preview_loop rest common_name numbering_style (start_index + 1)

/-- The (old name, new name) pairs printed by `preview_changes`: the first
five files only. -/
def preview_pairs (files : List String) (common_name : String)
    (numbering_style start_index : Int) : List (String × String) :=
  preview_loop (files.take 5) common_name numbering_style start_index

/-- The boolean returned by `preview_changes` for the confirmation line:
`input(...).strip().lower() == 'y'`. -/
def preview_confirm (reply : String) : Bool :=
  pyLower (pyStrip reply) == "y"

/-- Specification-side rename plan, following the contract of §4.5 (and the
`planRenames` function of §9): for the file at position `p`, the pair
`(oldName, {baseName}_{suffix(startIndex + p, style)}{originalExtension})`;
the recursion carries `startIndex + p` in its accumulator. -/
def rename_plan (files : List String) (baseName : String)
    (style startIndex : Int) : List (String × String) :=
  match files with
  | [] => []
  | f :: rest =>
    (f, baseName ++ "_" ++ generate_suffix startIndex style ++ splitext_ext f)
      :: rename_plan rest baseName style (startIndex + 1)

/-- Pipeline stages of `main`, in execution order. -/
inductive Stage where
  | prefs
  | lister
  | preview
  | renamer
deriving DecidableEq

/-- Observable outcome of a run of `main`: the stages that were entered, the
final directory state, the reported success count, and whether the
"No files found to rename!" message was printed. -/
structure MainResult where
  stages : List Stage
  fs : FS
  renamed_count : Nat
  msgNoFiles : Bool
deriving DecidableEq

/-- Everything outside the program that a run of `main` consumes: the input
lines, the current working directory, the directory enumeration outcome,
the directory state, and the `os.rename` failure oracle. -/
structure World where
  inputs : List String
  cwd : String
  listing : Listing
  fs : FS
  osError : String → String → Bool

/-- The `main` orchestration: preferences, file listing (where Python's
`if not files:` treats the `None` failure signal and the empty list
identically), preview with confirmation, renaming, summary. -/
def main (w : World) : MainResult :=
  match get_user_preferences w.inputs w.cwd with
  | PrefResult.validationFailure => MainResult.mk [Stage.prefs] w.fs 0 false
  | PrefResult.blocked => MainResult.mk [Stage.prefs] w.fs 0 false
  | PrefResult.ok p rest =>
    match get_files_to_rename w.listing p.extension_filter with
    | none => MainResult.mk [Stage.prefs, Stage.lister] w.fs 0 true
    | some files =>
      if files.isEmpty then MainResult.mk [Stage.prefs, Stage.lister] w.fs 0 true
      else
        match rest with
        | [] => MainResult.mk [Stage.prefs, Stage.lister, Stage.preview] w.fs 0 false
        | reply :: _ =>
          if preview_confirm reply then
            MainResult.mk [Stage.prefs, Stage.lister, Stage.preview, Stage.renamer]
              (rename_files w.fs w.osError files p.common_name p.numbering_style p.start_index).1
              (rename_files w.fs w.osError files p.common_name p.numbering_style p.start_index).2.1
              false
          else MainResult.mk [Stage.prefs, Stage.lister, Stage.preview] w.fs 0 false

/-- Value of a letter string read as bijective base 26
 (`'a'` is 1 through `'z'` is 26), over the character list. -/
def alphaValL (l : List Char) : Nat :=
  l.foldl (fun acc c => acc * 26 + (c.toNat - 96)) 0

/-- Value of a letter string read as bijective base 26. -/
def alphaVal (s : String) : Nat :=
  alphaValL s.data

/-! ### Suffix generator lemmas -/

theorem string_eq_empty_iff (s : String) : s = "" ↔ s.data = [] := by
  constructor
  · intro h
    rw [h]
  · intro h
    exact String.ext h

theorem data_append_singleton (s : String) (c : Char) :
    (s ++ String.singleton c).data = s.data ++ [c] := by
  rw [String.data_append]
  rfl

theorem alphaValL_concat (l : List Char) (c : Char) :
    alphaValL (l ++ [c]) = alphaValL l * 26 + (c.toNat - 96) := by
  simp [alphaValL, List.foldl_append]

theorem char_ofNat_lower_toNat : ∀ k, k < 26 → (Char.ofNat (97 + k)).toNat = 97 + k := by
  decide

theorem alphaLoopGo_spec : ∀ (fuel n : Nat), n ≤ fuel →
    alphaVal (alphaLoopGo fuel (n : Int)) = n
    ∧ (∀ c ∈ (alphaLoopGo fuel (n : Int)).data, 97 ≤ c.toNat ∧ c.toNat ≤ 122)
    ∧ (alphaLoopGo fuel (n : Int) = "" ↔ n = 0) := by
  intro fuel
  induction fuel with
  | zero =>
    intro n hn
    have h0 : n = 0 := by omega
    subst h0
    simp [alphaLoopGo, alphaVal, alphaValL]
  | succ a ih =>
    intro n hn
    match n with
    | 0 => simp [alphaLoopGo, alphaVal, alphaValL]
    | Nat.succ m =>
      have hpos : (0 : Int) < ((m + 1 : Nat) : Int) := by exact_mod_cast Nat.succ_pos m
      have hstep : alphaLoopGo (a + 1) ((m + 1 : Nat) : Int)
          = alphaLoopGo a (((m / 26 : Nat) : Int))
            ++ String.singleton (Char.ofNat (97 + m % 26)) := by
        have h1 : (((m + 1 : Nat) : Int) - 1) / 26 = ((m / 26 : Nat) : Int) := by omega
        have h2 : ((((m + 1 : Nat) : Int) - 1) % 26).toNat = m % 26 := by omega
        simp only [alphaLoopGo, if_pos hpos, h1, h2]
      have hrec := ih (m / 26) (by omega)
      have hmod : m % 26 < 26 := Nat.mod_lt _ (by norm_num)
      have hchar := char_ofNat_lower_toNat (m % 26) hmod
      refine ⟨?_, ?_, ?_⟩
      · rw [hstep, alphaVal, data_append_singleton, alphaValL_concat, hchar]
        have := hrec.1
        rw [alphaVal] at this
        rw [this]
        omega
      · intro c hc
        rw [hstep, data_append_singleton] at hc
        rcases List.mem_append.mp hc with hc | hc
        · exact hrec.2.1 c hc
        · have : c = Char.ofNat (97 + m % 26) := List.mem_singleton.mp hc
          subst this
          rw [hchar]
          omega
      · rw [hstep]
        constructor
        · intro hemp
          have := (string_eq_empty_iff _).mp hemp
          rw [data_append_singleton] at this
          exact absurd this (by simp)
        · intro hemp
          exact absurd hemp (by omega)

theorem alphaLoopGo_congr : ∀ (f1 : Nat) (i : Int) (f2 : Nat),
    i.toNat ≤ f1 → i.toNat ≤ f2 → alphaLoopGo f1 i = alphaLoopGo f2 i := by
  intro f1
  induction f1 with
  | zero =>
    intro i f2 h1 h2
    have hle : ¬ (0 : Int) < i := by omega
    match f2 with
    | 0 => rfl
    | b + 1 => simp [alphaLoopGo, hle]
  | succ a ih =>
    intro i f2 h1 h2
    by_cases hpos : 0 < i
    · match f2 with
      | 0 => omega
      | b + 1 =>
        simp only [alphaLoopGo, if_pos hpos]
        congr 1
        exact ih ((i - 1) / 26) b (by omega) (by omega)
    · match f2 with
      | 0 => simp [alphaLoopGo, hpos]
      | b + 1 => simp [alphaLoopGo, hpos]

theorem generate_suffix_alpha (i : Int) : generate_suffix i 2 = alphaLoopGo i.toNat i := by
  unfold generate_suffix
  rw [if_neg (by norm_num)]

theorem alphaValL_lower_inj : ∀ (n : Nat) (l1 l2 : List Char),
    (∀ c ∈ l1, 97 ≤ c.toNat ∧ c.toNat ≤ 122) →
    (∀ c ∈ l2, 97 ≤ c.toNat ∧ c.toNat ≤ 122) →
    alphaValL l1 = n → alphaValL l2 = n → l1 = l2 := by
  intro n
  induction n using Nat.strong_induction_on with
  | _ n ih =>
    intro l1 l2 hr1 hr2 hv1 hv2
    rcases List.eq_nil_or_concat l1 with h1 | ⟨t1, c1, h1⟩
    · subst h1
      rcases List.eq_nil_or_concat l2 with h2 | ⟨t2, c2, h2⟩
      · subst h2
        rfl
      · rw [List.concat_eq_append] at h2
        subst h2
        exfalso
        rw [alphaValL_concat] at hv2
        have hc2 := hr2 c2 (List.mem_append_right _ (List.mem_singleton_self c2))
        have hv1' : alphaValL ([] : List Char) = 0 := rfl
        omega
    · rw [List.concat_eq_append] at h1
      subst h1
      rcases List.eq_nil_or_concat l2 with h2 | ⟨t2, c2, h2⟩
      · subst h2
        exfalso
        rw [alphaValL_concat] at hv1
        have hc1 := hr1 c1 (List.mem_append_right _ (List.mem_singleton_self c1))
        have hv2' : alphaValL ([] : List Char) = 0 := rfl
        omega
      · rw [List.concat_eq_append] at h2
        subst h2
        rw [alphaValL_concat] at hv1 hv2
        have hc1 := hr1 c1 (List.mem_append_right _ (List.mem_singleton_self c1))
        have hc2 := hr2 c2 (List.mem_append_right _ (List.mem_singleton_self c2))
        have hceq : c1.toNat = c2.toNat := by omega
        have hveq : alphaValL t1 = alphaValL t2 := by omega
        have hvlt : alphaValL t1 < n := by omega
        have ht : t1 = t2 := by
          refine ih (alphaValL t1) hvlt t1 t2 ?_ ?_ rfl hveq.symm
          · intro c hc
            exact hr1 c (List.mem_append_left _ hc)
          · intro c hc
            exact hr2 c (List.mem_append_left _ hc)
        rw [ht, Char.eq_of_val_eq (UInt32.ext hceq)]

/-! ### Renamer lemmas -/

theorem FS.pathExists_iff (fs : FS) (n : String) : fs.pathExists n = true ↔ n ∈ fs.names := by
  simp [FS.pathExists, List.contains]

theorem rename_plan_length (cn : String) (ns : Int) :
    ∀ (files : List String) (si : Int), (rename_plan files cn ns si).length = files.length := by
  intro files
  induction files with
  | nil => intro si; rfl
  | cons f rest ih =>
    intro si
    simp [rename_plan, ih]

theorem rename_plan_get? (cn : String) (ns : Int) :
    ∀ (files : List String) (p : Nat) (si : Int) (f0 : String),
    files.get? p = some f0 →
    (rename_plan files cn ns si).get? p
      = some (f0, cn ++ "_" ++ generate_suffix (si + (p : Int)) ns ++ splitext_ext f0) := by
  intro files
  induction files with
  | nil =>
    intro p si f0 h
    simp at h
  | cons f rest ih =>
    intro p si f0 h
    match p with
    | 0 =>
      have hf : f = f0 := by simpa using h
      subst hf
      simp [rename_plan]
    | Nat.succ q =>
      have hq : rest.get? q = some f0 := by simpa using h
      have hrec := ih q (si + 1) f0 hq
      have harith : si + 1 + (q : Int) = si + ((Nat.succ q : Nat) : Int) := by
        push_cast
        ring
      rw [harith] at hrec
      simpa [rename_plan] using hrec

theorem preview_loop_eq_plan (cn : String) (ns : Int) :
    ∀ (l : List String) (si : Int), preview_loop l cn ns si = rename_plan l cn ns si := by
  intro l
  induction l with
  | nil => intro si; rfl
  | cons f rest ih =>
    intro si
    simp [preview_loop, rename_plan, ih]

theorem rename_plan_take (cn : String) (ns : Int) :
    ∀ (l : List String) (k : Nat) (si : Int),
    rename_plan (l.take k) cn ns si = (rename_plan l cn ns si).take k := by
  intro l
  induction l with
  | nil =>
    intro k si
    simp [rename_plan]
  | cons f rest ih =>
    intro k si
    match k with
    | 0 => rfl
    | Nat.succ j => simp [List.take_succ_cons, rename_plan, ih]

theorem preview_pairs_eq_plan (files : List String) (cn : String) (ns si : Int) :
    preview_pairs files cn ns si = (rename_plan files cn ns si).take 5 := by
  rw [preview_pairs, preview_loop_eq_plan, rename_plan_take]

theorem rename_files_events :
    ∀ (files : List String) (fs : FS) (err : String → String → Bool) (cn : String) (ns si : Int),
    ((rename_files fs err files cn ns si).2.2).map eventPair = rename_plan files cn ns si := by
  intro files
  induction files with
  | nil =>
    intro fs err cn ns si
    rfl
  | cons f rest ih =>
    intro fs err cn ns si
    cases hex : fs.pathExists (cn ++ "_" ++ generate_suffix si ns ++ splitext_ext f) with
    | true =>
      simp [rename_files, hex, eventPair, RenameEvent.oldName, RenameEvent.newName,
        rename_plan, ih]
    | false =>
      cases herr : err f (cn ++ "_" ++ generate_suffix si ns ++ splitext_ext f) with
      | true =>
        simp [rename_files, hex, herr, eventPair, RenameEvent.oldName, RenameEvent.newName,
          rename_plan, ih]
      | false =>
        simp [rename_files, hex, herr, eventPair, RenameEvent.oldName, RenameEvent.newName,
          rename_plan, ih]

theorem rename_files_events_length
    (files : List String) (fs : FS) (err : String → String → Bool) (cn : String) (ns si : Int) :
    ((rename_files fs err files cn ns si).2.2).length = files.length := by
  have h := congrArg List.length (rename_files_events files fs err cn ns si)
  simpa [rename_plan_length] using h

theorem rename_files_count :
    ∀ (files : List String) (fs : FS) (err : String → String → Bool) (cn : String) (ns si : Int),
    (rename_files fs err files cn ns si).2.1
      = (((rename_files fs err files cn ns si).2.2).filter RenameEvent.isRenamed).length := by
  intro files
  induction files with
  | nil =>
    intro fs err cn ns si
    rfl
  | cons f rest ih =>
    intro fs err cn ns si
    cases hex : fs.pathExists (cn ++ "_" ++ generate_suffix si ns ++ splitext_ext f) with
    | true => simp [rename_files, hex, RenameEvent.isRenamed, ih]
    | false =>
      cases herr : err f (cn ++ "_" ++ generate_suffix si ns ++ splitext_ext f) with
      | true => simp [rename_files, hex, herr, RenameEvent.isRenamed, ih]
      | false => simp [rename_files, hex, herr, RenameEvent.isRenamed, ih]

theorem rename_files_cons_collision (fs : FS) (err : String → String → Bool)
    (f : String) (rest : List String) (cn : String) (ns si : Int)
    (hex : fs.pathExists (cn ++ "_" ++ generate_suffix si ns ++ splitext_ext f) = true) :
    rename_files fs err (f :: rest) cn ns si
      = ((rename_files fs err rest cn ns (si + 1)).1,
         (rename_files fs err rest cn ns (si + 1)).2.1,
         RenameEvent.collision f (cn ++ "_" ++ generate_suffix si ns ++ splitext_ext f)
           :: (rename_files fs err rest cn ns (si + 1)).2.2) := by
  simp only [rename_files, hex, if_true]

theorem rename_files_cons_osFailed (fs : FS) (err : String → String → Bool)
    (f : String) (rest : List String) (cn : String) (ns si : Int)
    (hex : fs.pathExists (cn ++ "_" ++ generate_suffix si ns ++ splitext_ext f) = false)
    (herr : err f (cn ++ "_" ++ generate_suffix si ns ++ splitext_ext f) = true) :
    rename_files fs err (f :: rest) cn ns si
      = ((rename_files fs err rest cn ns (si + 1)).1,
         (rename_files fs err rest cn ns (si + 1)).2.1,
         RenameEvent.osFailed f (cn ++ "_" ++ generate_suffix si ns ++ splitext_ext f)
           :: (rename_files fs err rest cn ns (si + 1)).2.2) := by
  simp only [rename_files, hex, herr, if_true, Bool.false_eq_true, if_false]

theorem rename_files_cons_renamed (fs : FS) (err : String → String → Bool)
    (f : String) (rest : List String) (cn : String) (ns si : Int)
    (hex : fs.pathExists (cn ++ "_" ++ generate_suffix si ns ++ splitext_ext f) = false)
    (herr : err f (cn ++ "_" ++ generate_suffix si ns ++ splitext_ext f) = false) :
    rename_files fs err (f :: rest) cn ns si
      = ((rename_files (fs.applyRename f (cn ++ "_" ++ generate_suffix si ns ++ splitext_ext f))
            err rest cn ns (si + 1)).1,
         (rename_files (fs.applyRename f (cn ++ "_" ++ generate_suffix si ns ++ splitext_ext f))
            err rest cn ns (si + 1)).2.1 + 1,
         RenameEvent.renamed f (cn ++ "_" ++ generate_suffix si ns ++ splitext_ext f)
           :: (rename_files (fs.applyRename f (cn ++ "_" ++ generate_suffix si ns ++ splitext_ext f))
               err rest cn ns (si + 1)).2.2) := by
  simp only [rename_files, hex, herr, Bool.false_eq_true, if_false]

theorem rename_files_append :
    ∀ (l1 l2 : List String) (fs : FS) (err : String → String → Bool) (cn : String) (ns si : Int),
    rename_files fs err (l1 ++ l2) cn ns si
      = ((rename_files (rename_files fs err l1 cn ns si).1 err l2 cn ns
            (si + (l1.length : Int))).1,
         (rename_files fs err l1 cn ns si).2.1
           + (rename_files (rename_files fs err l1 cn ns si).1 err l2 cn ns
               (si + (l1.length : Int))).2.1,
         (rename_files fs err l1 cn ns si).2.2
           ++ (rename_files (rename_files fs err l1 cn ns si).1 err l2 cn ns
               (si + (l1.length : Int))).2.2) := by
  intro l1
  induction l1 with
  | nil =>
    intro l2 fs err cn ns si
    simp [rename_files]
  | cons f rest ih =>
    intro l2 fs err cn ns si
    have hidx : si + (((f :: rest).length : Nat) : Int) = si + 1 + (rest.length : Int) := by
      push_cast [List.length_cons]
      ring
    cases hex : fs.pathExists (cn ++ "_" ++ generate_suffix si ns ++ splitext_ext f) with
    | true =>
      rw [List.cons_append, rename_files_cons_collision fs err f (rest ++ l2) cn ns si hex,
        rename_files_cons_collision fs err f rest cn ns si hex,
        ih l2 fs err cn ns (si + 1), hidx]
      simp [Prod.mk.injEq, List.cons_append]
    | false =>
      cases herr : err f (cn ++ "_" ++ generate_suffix si ns ++ splitext_ext f) with
      | true =>
        rw [List.cons_append, rename_files_cons_osFailed fs err f (rest ++ l2) cn ns si hex herr,
          rename_files_cons_osFailed fs err f rest cn ns si hex herr,
          ih l2 fs err cn ns (si + 1), hidx]
        simp [Prod.mk.injEq, List.cons_append]
      | false =>
        rw [List.cons_append, rename_files_cons_renamed fs err f (rest ++ l2) cn ns si hex herr,
          rename_files_cons_renamed fs err f rest cn ns si hex herr,
          ih l2 _ err cn ns (si + 1), hidx]
        simp [Prod.mk.injEq, List.cons_append]
        omega

theorem rename_files_preserve :
    ∀ (files : List String) (fs : FS) (err : String → String → Bool) (cn : String) (ns si : Int)
      (x : String), x ∈ fs.names → x ∉ files →
    x ∈ (rename_files fs err files cn ns si).1.names := by
  intro files
  induction files with
  | nil =>
    intro fs err cn ns si x hmem _
    exact hmem
  | cons f rest ih =>
    intro fs err cn ns si x hmem hnot
    have hne : x ≠ f := fun h => hnot (h ▸ List.mem_cons_self f rest)
    have hnotr : x ∉ rest := fun h => hnot (List.mem_cons_of_mem f h)
    cases hex : fs.pathExists (cn ++ "_" ++ generate_suffix si ns ++ splitext_ext f) with
    | true =>
      simp only [rename_files, hex, if_true]
      exact ih fs err cn ns (si + 1) x hmem hnotr
    | false =>
      cases herr : err f (cn ++ "_" ++ generate_suffix si ns ++ splitext_ext f) with
      | true =>
        simp only [rename_files, hex, herr, if_true, Bool.false_eq_true, if_false]
        exact ih fs err cn ns (si + 1) x hmem hnotr
      | false =>
        simp only [rename_files, hex, herr, Bool.false_eq_true, if_false]
        refine ih _ err cn ns (si + 1) x ?_ hnotr
        exact List.mem_cons_of_mem _ ((List.mem_erase_of_ne hne).mpr hmem)

theorem rename_files_fs_inv :
    ∀ (files : List String) (fs : FS) (err : String → String → Bool) (cn : String) (ns si : Int),
    files.Nodup → (∀ f ∈ files, f ∈ fs.names) →
    ((rename_files fs err files cn ns si).1.names.length = fs.names.length
      ∧ (fs.names.Nodup → (rename_files fs err files cn ns si).1.names.Nodup)) := by
  intro files
  induction files with
  | nil =>
    intro fs err cn ns si _ _
    exact ⟨rfl, fun h => h⟩
  | cons f rest ih =>
    intro fs err cn ns si hnd hsub
    have hfmem : f ∈ fs.names := hsub f (List.mem_cons_self f rest)
    have hfnotr : f ∉ rest := (List.nodup_cons.mp hnd).1
    have hndr : rest.Nodup := (List.nodup_cons.mp hnd).2
    have hsubr : ∀ g ∈ rest, g ∈ fs.names := fun g hg => hsub g (List.mem_cons_of_mem f hg)
    cases hex : fs.pathExists (cn ++ "_" ++ generate_suffix si ns ++ splitext_ext f) with
    | true =>
      simp only [rename_files, hex, if_true]
      exact ih fs err cn ns (si + 1) hndr hsubr
    | false =>
      cases herr : err f (cn ++ "_" ++ generate_suffix si ns ++ splitext_ext f) with
      | true =>
        simp only [rename_files, hex, herr, if_true, Bool.false_eq_true, if_false]
        exact ih fs err cn ns (si + 1) hndr hsubr
      | false =>
        simp only [rename_files, hex, herr, Bool.false_eq_true, if_false]
        have hnew : (cn ++ "_" ++ generate_suffix si ns ++ splitext_ext f) ∉ fs.names := by
          intro hmem
          have := (FS.pathExists_iff fs _).mpr hmem
          rw [hex] at this
          cases this
        have hlen1 : (fs.applyRename f (cn ++ "_" ++ generate_suffix si ns ++ splitext_ext f)).names.length
            = fs.names.length := by
          simp only [FS.applyRename, List.length_cons, List.length_erase_of_mem hfmem]
          have := List.length_pos_of_mem hfmem
          omega
        have hsub1 : ∀ g ∈ rest,
            g ∈ (fs.applyRename f (cn ++ "_" ++ generate_suffix si ns ++ splitext_ext f)).names := by
          intro g hg
          have hgne : g ≠ f := fun h => hfnotr (h ▸ hg)
          exact List.mem_cons_of_mem _ ((List.mem_erase_of_ne hgne).mpr (hsubr g hg))
        have hrec := ih (fs.applyRename f (cn ++ "_" ++ generate_suffix si ns ++ splitext_ext f))
          err cn ns (si + 1) hndr hsub1
        refine ⟨by rw [hrec.1, hlen1], fun hfsnd => ?_⟩
        refine hrec.2 ?_
        simp only [FS.applyRename]
        refine List.nodup_cons.mpr ⟨?_, hfsnd.erase f⟩
        intro hmem
        exact hnew (List.mem_of_mem_erase hmem)

theorem list_split_at (files : List String) (p : Nat) (f0 : String)
    (hget : files.get? p = some f0) :
    files = files.take p ++ (f0 :: files.drop (p + 1)) := by
  obtain ⟨hp, hgetf⟩ := List.get?_eq_some.mp hget
  have hgetelem : files[p] = f0 := by
    rw [← hgetf]
    exact (List.get_eq_getElem files ⟨p, hp⟩).symm
  conv_lhs => rw [← List.take_append_drop p files]
  rw [List.drop_eq_getElem_cons hp, hgetelem]

theorem rename_files_mid
    (files : List String) (fs : FS) (err : String → String → Bool) (cn : String) (ns si : Int)
    (p : Nat) (f0 : String) (hget : files.get? p = some f0) :
    rename_files fs err files cn ns si
      = ((rename_files (rename_files fs err (files.take p) cn ns si).1 err
            (f0 :: files.drop (p + 1)) cn ns (si + (p : Int))).1,
         (rename_files fs err (files.take p) cn ns si).2.1
           + (rename_files (rename_files fs err (files.take p) cn ns si).1 err
               (f0 :: files.drop (p + 1)) cn ns (si + (p : Int))).2.1,
         (rename_files fs err (files.take p) cn ns si).2.2
           ++ (rename_files (rename_files fs err (files.take p) cn ns si).1 err
               (f0 :: files.drop (p + 1)) cn ns (si + (p : Int))).2.2) := by
  obtain ⟨hp, _⟩ := List.get?_eq_some.mp hget
  have hsplit := list_split_at files p f0 hget
  have hlenA : ((files.take p).length : Int) = (p : Int) := by
    rw [List.length_take, Nat.min_eq_left (Nat.le_of_lt hp)]
  conv_lhs => rw [hsplit]
  rw [rename_files_append, hlenA]

theorem extAfterLastDot_spec :
    ∀ (l e : List Char), extAfterLastDot l = some e → e.head? = some '.' ∧ e <:+ l := by
  intro l
  induction l with
  | nil =>
    intro e h
    simp [extAfterLastDot] at h
  | cons c rest ih =>
    intro e h
    simp only [extAfterLastDot] at h
    cases hrec : extAfterLastDot rest with
    | some e2 =>
      rw [hrec] at h
      simp only at h
      cases h
      exact ⟨(ih e hrec).1, (ih e hrec).2.trans (List.suffix_cons c rest)⟩
    | none =>
      rw [hrec] at h
      simp only at h
      by_cases hc : c == '.'
      · rw [if_pos hc] at h
        cases h
        refine ⟨?_, List.suffix_refl _⟩
        simp [eq_of_beq hc]
      · rw [if_neg hc] at h
        cases h

theorem splitext_ext_spec (f : String) :
    splitext_ext f = ""
    ∨ ((splitext_ext f).data.head? = some '.' ∧ (splitext_ext f).data <:+ f.data) := by
  unfold splitext_ext
  cases hrec : extAfterLastDot f.data with
  | none => exact Or.inl rfl
  | some e =>
    dsimp only
    by_cases hall : (f.data.take (f.data.length - e.length)).all (fun c => c == '.')
    · rw [if_pos hall]
      exact Or.inl rfl
    · rw [if_neg hall]
      exact Or.inr (extAfterLastDot_spec f.data e hrec)

/-- C2: the new filename the Renamer computes for the file at 0-based
position p — and the one the Preview shows for the first five files — is
`baseName ++ "_" ++ suffix(startIndex + p, style) ++ originalExtension`:
the renamer's per-file events project exactly onto the specification-side
rename plan, the preview pairs are the first five plan entries, the plan
entry at position p carries that formula, the original extension is empty
or starts with a dot and is a suffix of the original name, and the
baseName "photo" / Numeric / startIndex 1 example over x.png, y.png yields
photo_1.png, photo_2.png. -/
theorem C2_new_filename_formula (fs : FS) (err : String → String → Bool)
    (files : List String) (cn : String) (ns si : Int) (p : Nat) (f0 : String)
    (hget : files.get? p = some f0) :
    ((rename_files fs err files cn ns si).2.2).map eventPair = rename_plan files cn ns si
    ∧ preview_pairs files cn ns si = (rename_plan files cn ns si).take 5
    ∧ (rename_plan files cn ns si).get? p
        = some (f0, cn ++ "_" ++ generate_suffix (si + (p : Int)) ns ++ splitext_ext f0)
    ∧ (splitext_ext f0 = ""
        ∨ ((splitext_ext f0).data.head? = some '.' ∧ (splitext_ext f0).data <:+ f0.data))
    ∧ rename_plan [ "x.png", "y.png" ] "photo" 1 1
        = [( "x.png", "photo_1.png"), ( "y.png", "photo_2.png")] := by
  exact ⟨rename_files_events files fs err cn ns si,
    preview_pairs_eq_plan files cn ns si,
    rename_plan_get? cn ns files p si f0 hget,
    splitext_ext_spec f0,
    by decide⟩

/-- C2 witness: the formula theorem instantiated at the spec's example
 (baseName "photo", Numeric style, startIndex 1, files x.png and y.png). -/
theorem C2_new_filename_formula_witness :
    ((rename_files (FS.mk []) (fun _ _ => false) [ "x.png", "y.png" ] "photo" 1 1).2.2).map
        eventPair
      = rename_plan [ "x.png", "y.png" ] "photo" 1 1
    ∧ rename_plan [ "x.png", "y.png" ] "photo" 1 1
      = [( "x.png", "photo_1.png"), ( "y.png", "photo_2.png")] := by
  have h := C2_new_filename_formula (FS.mk []) (fun _ _ => false) [ "x.png", "y.png" ]
    "photo" 1 1 0 "x.png" (by decide)
  exact ⟨h.1, h.2.2.2.2⟩

/-- C3: whenever the destination name computed for the file at position p
already exists in the directory at the moment that file is processed, the
Renamer records a collision for it (skipping it): the file keeps its
original name in the final directory state, no directory entry is lost or
overwritten (the entry count is preserved and distinctness of names is
preserved), the returned success count counts only successful renames and
is strictly below the batch size, and every file of the batch is still
processed. -/
theorem C3_collision_skips_file (fs : FS) (err : String → String → Bool)
    (files : List String) (cn : String) (ns si : Int) (p : Nat) (f0 : String)
    (hget : files.get? p = some f0)
    (hnd : files.Nodup)
    (hsub : ∀ f ∈ files, f ∈ fs.names)
    (hcol : ((rename_files fs err (files.take p) cn ns si).1).pathExists
        (cn ++ "_" ++ generate_suffix (si + (p : Int)) ns ++ splitext_ext f0) = true) :
    ((rename_files fs err files cn ns si).2.2).get? p
        = some (RenameEvent.collision f0
            (cn ++ "_" ++ generate_suffix (si + (p : Int)) ns ++ splitext_ext f0))
    ∧ f0 ∈ (rename_files fs err files cn ns si).1.names
    ∧ (rename_files fs err files cn ns si).1.names.length = fs.names.length
    ∧ (fs.names.Nodup → (rename_files fs err files cn ns si).1.names.Nodup)
    ∧ (rename_files fs err files cn ns si).2.1
        = (((rename_files fs err files cn ns si).2.2).filter RenameEvent.isRenamed).length
    ∧ (rename_files fs err files cn ns si).2.1 < files.length
    ∧ ((rename_files fs err files cn ns si).2.2).length = files.length := by
  obtain ⟨hp, _⟩ := List.get?_eq_some.mp hget
  have hmid := rename_files_mid files fs err cn ns si p f0 hget
  rw [rename_files_cons_collision _ err f0 (files.drop (p + 1)) cn ns (si + (p : Int)) hcol]
    at hmid
  have hlenA : ((rename_files fs err (files.take p) cn ns si).2.2).length = p := by
    rw [rename_files_events_length, List.length_take]
    exact Nat.min_eq_left (Nat.le_of_lt hp)
  have hf0files : f0 ∈ files := List.get?_mem hget
  have hsplit := list_split_at files p f0 hget
  have hnd2 : f0 ∉ files.take p ∧ f0 ∉ files.drop (p + 1) := by
    rw [hsplit, List.nodup_middle, List.nodup_cons] at hnd
    exact ⟨fun h => hnd.1 (List.mem_append_left _ h), fun h => hnd.1 (List.mem_append_right _ h)⟩
  have hf0fsA : f0 ∈ (rename_files fs err (files.take p) cn ns si).1.names :=
    rename_files_preserve (files.take p) fs err cn ns si f0 (hsub f0 hf0files) hnd2.1
  have hget? : ((rename_files fs err files cn ns si).2.2).get? p
      = some (RenameEvent.collision f0
          (cn ++ "_" ++ generate_suffix (si + (p : Int)) ns ++ splitext_ext f0)) := by
    simp only [hmid]
    rw [List.get?_append_right (by rw [hlenA])]
    simp [hlenA]
  refine ⟨hget?, ?_, (rename_files_fs_inv files fs err cn ns si hnd hsub).1,
    (rename_files_fs_inv files fs err cn ns si hnd hsub).2,
    rename_files_count files fs err cn ns si, ?_,
    rename_files_events_length files fs err cn ns si⟩
  · simp only [hmid]
    exact rename_files_preserve (files.drop (p + 1)) _ err cn ns _ f0 hf0fsA hnd2.2
  · have hcnt := rename_files_count files fs err cn ns si
    have hlen := rename_files_events_length files fs err cn ns si
    have hmem := List.get?_mem hget?
    have hflt : (List.filter RenameEvent.isRenamed
          (rename_files fs err files cn ns si).2.2).length
        < ((rename_files fs err files cn ns si).2.2).length :=
      List.length_filter_lt_length_iff_exists.mpr ⟨_, hmem, by simp [RenameEvent.isRenamed]⟩
    omega

/-- C3 witness: the collision theorem instantiated with one source file
x.png and an existing destination photo_1.png. -/
theorem C3_collision_skips_file_witness :
    "x.png" ∈ (rename_files (FS.mk [ "x.png", "photo_1.png" ]) (fun _ _ => false)
        [ "x.png" ] "photo" 1 1).1.names
    ∧ (rename_files (FS.mk [ "x.png", "photo_1.png" ]) (fun _ _ => false)
        [ "x.png" ] "photo" 1 1).1.names.length = (FS.mk [ "x.png", "photo_1.png" ]).names.length
    ∧ (rename_files (FS.mk [ "x.png", "photo_1.png" ]) (fun _ _ => false)
        [ "x.png" ] "photo" 1 1).2.1 < ([ "x.png" ] : List String).length := by
  have h := C3_collision_skips_file (FS.mk [ "x.png", "photo_1.png" ]) (fun _ _ => false)
    [ "x.png" ] "photo" 1 1 0 "x.png" (by decide) (by decide) (by decide) (by decide)
  exact ⟨h.2.1, h.2.2.1, h.2.2.2.2.2.1⟩

/-- C6: whenever the rename of the file at position p raises an OS-level
failure (and its destination did not already exist), the Renamer records an
error event for that file, the file keeps its original name in the final
directory state, the returned success count counts only successful renames
and is strictly below the batch size, and every remaining file of the batch
is still processed — the batch is never aborted. -/
theorem C6_os_failure_isolated (fs : FS) (err : String → String → Bool)
    (files : List String) (cn : String) (ns si : Int) (p : Nat) (f0 : String)
    (hget : files.get? p = some f0)
    (hnd : files.Nodup)
    (hsub : ∀ f ∈ files, f ∈ fs.names)
    (hncol : ((rename_files fs err (files.take p) cn ns si).1).pathExists
        (cn ++ "_" ++ generate_suffix (si + (p : Int)) ns ++ splitext_ext f0) = false)
    (herr : err f0 (cn ++ "_" ++ generate_suffix (si + (p : Int)) ns ++ splitext_ext f0)
        = true) :
    ((rename_files fs err files cn ns si).2.2).get? p
        = some (RenameEvent.osFailed f0
            (cn ++ "_" ++ generate_suffix (si + (p : Int)) ns ++ splitext_ext f0))
    ∧ f0 ∈ (rename_files fs err files cn ns si).1.names
    ∧ (rename_files fs err files cn ns si).2.1
        = (((rename_files fs err files cn ns si).2.2).filter RenameEvent.isRenamed).length
    ∧ (rename_files fs err files cn ns si).2.1 < files.length
    ∧ ((rename_files fs err files cn ns si).2.2).length = files.length := by
  obtain ⟨hp, _⟩ := List.get?_eq_some.mp hget
  have hmid := rename_files_mid files fs err cn ns si p f0 hget
  rw [rename_files_cons_osFailed _ err f0 (files.drop (p + 1)) cn ns (si + (p : Int))
    hncol herr] at hmid
  have hlenA : ((rename_files fs err (files.take p) cn ns si).2.2).length = p := by
    rw [rename_files_events_length, List.length_take]
    exact Nat.min_eq_left (Nat.le_of_lt hp)
  have hf0files : f0 ∈ files := List.get?_mem hget
  have hsplit := list_split_at files p f0 hget
  have hnd2 : f0 ∉ files.take p ∧ f0 ∉ files.drop (p + 1) := by
    rw [hsplit, List.nodup_middle, List.nodup_cons] at hnd
    exact ⟨fun h => hnd.1 (List.mem_append_left _ h), fun h => hnd.1 (List.mem_append_right _ h)⟩
  have hf0fsA : f0 ∈ (rename_files fs err (files.take p) cn ns si).1.names :=
    rename_files_preserve (files.take p) fs err cn ns si f0 (hsub f0 hf0files) hnd2.1
  have hget? : ((rename_files fs err files cn ns si).2.2).get? p
      = some (RenameEvent.osFailed f0
          (cn ++ "_" ++ generate_suffix (si + (p : Int)) ns ++ splitext_ext f0)) := by
    simp only [hmid]
    rw [List.get?_append_right (by rw [hlenA])]
    simp [hlenA]
  refine ⟨hget?, ?_, rename_files_count files fs err cn ns si, ?_,
    rename_files_events_length files fs err cn ns si⟩
  · simp only [hmid]
    exact rename_files_preserve (files.drop (p + 1)) _ err cn ns _ f0 hf0fsA hnd2.2
  · have hcnt := rename_files_count files fs err cn ns si
    have hlen := rename_files_events_length files fs err cn ns si
    have hmem := List.get?_mem hget?
    have hflt : (List.filter RenameEvent.isRenamed
          (rename_files fs err files cn ns si).2.2).length
        < ((rename_files fs err files cn ns si).2.2).length :=
      List.length_filter_lt_length_iff_exists.mpr ⟨_, hmem, by simp [RenameEvent.isRenamed]⟩
    omega

/-- C6 witness: the OS-failure theorem instantiated with one source file
x.png whose rename is made to fail by the oracle. -/
theorem C6_os_failure_isolated_witness :
    "x.png" ∈ (rename_files (FS.mk [ "x.png" ]) (fun o _ => o == "x.png")
        [ "x.png" ] "photo" 1 1).1.names
    ∧ (rename_files (FS.mk [ "x.png" ]) (fun o _ => o == "x.png")
        [ "x.png" ] "photo" 1 1).2.1 < ([ "x.png" ] : List String).length
    ∧ ((rename_files (FS.mk [ "x.png" ]) (fun o _ => o == "x.png")
        [ "x.png" ] "photo" 1 1).2.2).length = ([ "x.png" ] : List String).length := by
  have h := C6_os_failure_isolated (FS.mk [ "x.png" ]) (fun o _ => o == "x.png")
    [ "x.png" ] "photo" 1 1 0 "x.png" (by decide) (by decide) (by decide) (by decide) (by decide)
  exact ⟨h.2.1, h.2.2.2.1, h.2.2.2.2⟩

/-- C1: for every integer index ≥ 1, the suffix generator returns the decimal
string of the index under the Numeric style (1), and under the Alphabetic
style (2) returns the bijective base-26 encoding in lowercase letters: the
unique non-empty string of letters a–z whose bijective base-26 value equals
the index; in particular 1 ↦ "a", 2 ↦ "b", 26 ↦ "z", 27 ↦ "aa", 28 ↦ "ab",
52 ↦ "az", 53 ↦ "ba". -/
theorem C1_suffix_generator (i : Int) (h : 1 ≤ i) :
    generate_suffix i 1 = toString i
    ∧ generate_suffix i 2 ≠ ""
    ∧ (∀ c ∈ (generate_suffix i 2).data, 97 ≤ c.toNat ∧ c.toNat ≤ 122)
    ∧ alphaVal (generate_suffix i 2) = i.toNat
    ∧ (∀ s : String, (∀ c ∈ s.data, 97 ≤ c.toNat ∧ c.toNat ≤ 122) →
        alphaVal s = i.toNat → s = generate_suffix i 2)
    ∧ generate_suffix 1 2 = "a" ∧ generate_suffix 2 2 = "b"
    ∧ generate_suffix 26 2 = "z" ∧ generate_suffix 27 2 = "aa"
    ∧ generate_suffix 28 2 = "ab" ∧ generate_suffix 52 2 = "az"
    ∧ generate_suffix 53 2 = "ba" := by
  have hcast : ((i.toNat : Nat) : Int) = i := Int.toNat_of_nonneg (by omega)
  have hg : generate_suffix i 2 = alphaLoopGo i.toNat ((i.toNat : Nat) : Int) := by
    rw [generate_suffix_alpha, hcast]
  have spec := alphaLoopGo_spec i.toNat i.toNat le_rfl
  refine ⟨?_, ?_, ?_, ?_, ?_, by decide, by decide, by decide, by decide, by decide,
    by decide, by decide⟩
  · unfold generate_suffix
    rw [if_pos rfl]
  · rw [hg]
    intro hemp
    have := spec.2.2.mp hemp
    omega
  · rw [hg]
    exact spec.2.1
  · rw [hg]
    exact spec.1
  · intro s hrange hval
    have hval2 : alphaVal (generate_suffix i 2) = i.toNat := by
      rw [hg]
      exact spec.1
    apply String.ext
    refine alphaValL_lower_inj i.toNat s.data (generate_suffix i 2).data hrange ?_ hval hval2
    rw [hg]
    exact spec.2.1

/-- C1 witness: the suffix generator theorem instantiated at index 27, with
the uniqueness clause applied to the concrete string "aa". -/
theorem C1_suffix_generator_witness :
    generate_suffix 27 1 = toString (27 : Int)
    ∧ generate_suffix 27 2 ≠ ""
    ∧ alphaVal (generate_suffix 27 2) = (27 : Int).toNat
    ∧ "aa" = generate_suffix 27 2 := by
  have h := C1_suffix_generator 27 (by decide)
  exact ⟨h.1, h.2.1, h.2.2.2.1, h.2.2.2.2.1 "aa" (by decide) (by decide)⟩

/-- C8: for index 0 under the Alphabetic style the suffix generator produces
the empty string (the letters loop body never runs), the Preference
Collector accepts startIndex 0 together with the Alphabetic style choice 2
without any validation, and the resulting degenerate filename for such a
job ends in a bare underscore before the extension. -/
theorem C8_alphabetic_zero_index :
    generate_suffix 0 2 = ""
    ∧ get_user_preferences [ "", "photo", "2", "0", "" ] "/work"
        = PrefResult.ok (Prefs.mk "/work" "photo" 2 0 "") []
    ∧ ("photo" ++ "_" ++ generate_suffix 0 2 ++ splitext_ext "x.png") = "photo_.png" := by
  refine ⟨by decide, by decide, by decide⟩

/-- C9: the letters loop of the suffix generator terminates: for index ≥ 1
the loop variable strictly decreases along `(index - 1) / 26`, for
index ≤ 0 the loop body never executes and the result is the empty string,
and the fuel bound `index.toNat` is sufficient: any fuel at least
`index.toNat` computes the same string the generator returns. -/
theorem C9_letters_loop_terminates (i : Int) :
    (1 ≤ i → (i - 1) / 26 < i)
    ∧ (i ≤ 0 → generate_suffix i 2 = "")
    ∧ (∀ fuel : Nat, i.toNat ≤ fuel → alphaLoopGo fuel i = generate_suffix i 2) := by
  refine ⟨fun h => by omega, fun h => ?_, fun fuel hf => ?_⟩
  · rw [generate_suffix_alpha]
    have h0 : i.toNat = 0 := by omega
    rw [h0]
    rfl
  · rw [generate_suffix_alpha]
    exact alphaLoopGo_congr fuel i i.toNat hf le_rfl

/-- C9 witness: the termination theorem instantiated at index 27 (decrease
and fuel irrelevance) and at index −2 (loop body never runs). -/
theorem C9_letters_loop_terminates_witness :
    ((27 : Int) - 1) / 26 < 27
    ∧ generate_suffix (-2) 2 = ""
    ∧ alphaLoopGo 100 27 = generate_suffix 27 2 :=
  ⟨(C9_letters_loop_terminates 27).1 (by decide),
    (C9_letters_loop_terminates (-2)).2.1 (by decide),
    (C9_letters_loop_terminates 27).2.2 100 (by decide)⟩

/-! ### File lister, confirmation gate, and pipeline claims -/

/-- C5: for every directory enumeration and every extension filter that is
non-empty after the collector's strip and lowercase, the File Lister
returns exactly the regular files (directories excluded) whose full
lowercase filename ends with the dot-normalized filter, in enumeration
order (the result is a sublist of the enumerated names); the example
listing a.txt, b.txt, c.jpg with filter ".txt" yields exactly a.txt, b.txt. -/
theorem C5_file_lister (entries : List DirEntry) (extRaw : String)
    (hne : pyLower (pyStrip extRaw) ≠ "") :
    ∃ l, get_files_to_rename (Listing.ok entries) (pyLower (pyStrip extRaw)) = some l
      ∧ l.Sublist (entries.map (fun e => e.name))
      ∧ (∀ f, f ∈ l ↔ (DirEntry.mk f true ∈ entries
          ∧ pyEndsWith (pyLower f) (dotNormalize (pyLower (pyStrip extRaw))) = true))
      ∧ get_files_to_rename
          (Listing.ok [ DirEntry.mk "a.txt" true, DirEntry.mk "b.txt" true,
            DirEntry.mk "c.jpg" true ]) ".txt"
        = some [ "a.txt", "b.txt" ] := by
  have heq : get_files_to_rename (Listing.ok entries) (pyLower (pyStrip extRaw))
      = some (((entries.filter (fun e => e.isFile)).map (fun e => e.name)).filter
          (fun f => pyEndsWith (pyLower f) (dotNormalize (pyLower (pyStrip extRaw))))) := by
    simp only [get_files_to_rename]
    rw [if_pos hne]
  refine ⟨_, heq, ?_, ?_, by decide⟩
  · rw [List.map_filter]
    exact List.Sublist.map _ ((List.filter_sublist _).trans (List.filter_sublist _))
  · intro f
    simp only [List.mem_filter, List.mem_map]
    constructor
    · rintro ⟨⟨e, hmem, hname⟩, hpred⟩
      refine ⟨?_, hpred⟩
      have he : e = DirEntry.mk f true := by
        cases e
        simp only [DirEntry.mk.injEq]
        exact ⟨hname, hmem.2⟩
      rw [← he]
      exact hmem.1
    · rintro ⟨hmem, hpred⟩
      exact ⟨⟨DirEntry.mk f true, ⟨hmem, rfl⟩, rfl⟩, hpred⟩

/-- C5 witness: the file lister theorem instantiated at the spec's example
listing with filter ".txt". -/
theorem C5_file_lister_witness :
    get_files_to_rename
        (Listing.ok [ DirEntry.mk "a.txt" true, DirEntry.mk "b.txt" true,
          DirEntry.mk "c.jpg" true ]) ".txt"
      = some [ "a.txt", "b.txt" ] := by
  obtain ⟨l, _, _, _, h⟩ := C5_file_lister
    [ DirEntry.mk "a.txt" true, DirEntry.mk "b.txt" true, DirEntry.mk "c.jpg" true ]
    ".txt" (by decide)
  exact h

/-- C7: when the base name input is empty after trimming whitespace, the
Preference Collector returns the failure signal and `main` halts with only
the preferences stage entered: the File Lister never runs, the directory
state is unchanged, and the success count is 0, for every directory
enumeration outcome. -/
theorem C7_empty_base_name_aborts (dirIn nameIn : String) (rest : List String)
    (cwd : String) (listing : Listing) (fs : FS) (err : String → String → Bool)
    (hname : pyStrip nameIn = "") :
    get_user_preferences (dirIn :: nameIn :: rest) cwd = PrefResult.validationFailure
    ∧ main (World.mk (dirIn :: nameIn :: rest) cwd listing fs err)
        = MainResult.mk [Stage.prefs] fs 0 false
    ∧ Stage.lister ∉ (main (World.mk (dirIn :: nameIn :: rest) cwd listing fs err)).stages := by
  have hpref : get_user_preferences (dirIn :: nameIn :: rest) cwd
      = PrefResult.validationFailure := by
    simp [get_user_preferences, hname]
  have hmain : main (World.mk (dirIn :: nameIn :: rest) cwd listing fs err)
      = MainResult.mk [Stage.prefs] fs 0 false := by
    simp [main, hpref]
  exact ⟨hpref, hmain, by rw [hmain]; simp⟩

/-- C7 witness: the empty-base-name theorem instantiated with the input
line " " (whitespace only) for the base name. -/
theorem C7_empty_base_name_aborts_witness :
    get_user_preferences [ "x", " " ] "/w" = PrefResult.validationFailure
    ∧ main (World.mk [ "x", " " ] "/w" (Listing.ok []) (FS.mk [ "f.txt" ]) (fun _ _ => false))
        = MainResult.mk [Stage.prefs] (FS.mk [ "f.txt" ]) 0 false := by
  have h := C7_empty_base_name_aborts "x" " " [] "/w" (Listing.ok [])
    (FS.mk [ "f.txt" ]) (fun _ _ => false) (by decide)
  exact ⟨h.1, h.2.1⟩

/-- C10: when the File Lister fails (directory not found or permission
denied) and when it succeeds with a listing whose filtered result is empty,
`main` produces the identical outcome: it prints "No files found to
rename!", halts after the lister stage (the Preview/Confirm gate is never
entered), leaves the directory state unchanged, and reports success count
0 — the error outcome and the empty-but-valid outcome are
indistinguishable at the pipeline gate. -/
theorem C10_error_and_empty_agree (inputs : List String) (cwd : String)
    (fs : FS) (err : String → String → Bool) (p : Prefs) (rest : List String)
    (entries : List DirEntry)
    (hpref : get_user_preferences inputs cwd = PrefResult.ok p rest)
    (hempty : get_files_to_rename (Listing.ok entries) p.extension_filter = some []) :
    main (World.mk inputs cwd Listing.dirNotFound fs err)
        = MainResult.mk [Stage.prefs, Stage.lister] fs 0 true
    ∧ main (World.mk inputs cwd Listing.permissionDenied fs err)
        = MainResult.mk [Stage.prefs, Stage.lister] fs 0 true
    ∧ main (World.mk inputs cwd (Listing.ok entries) fs err)
        = MainResult.mk [Stage.prefs, Stage.lister] fs 0 true := by
  refine ⟨?_, ?_, ?_⟩
  · simp [main, hpref, get_files_to_rename]
  · simp [main, hpref, get_files_to_rename]
  · simp [main, hpref, hempty]

/-- C10 witness: the indistinguishability theorem instantiated with a
concrete accepted preference stream and an empty directory. -/
theorem C10_error_and_empty_agree_witness :
    main (World.mk [ "", "photo", "1", "1", "" ] "/w" Listing.dirNotFound
          (FS.mk [ "a" ]) (fun _ _ => false))
        = MainResult.mk [Stage.prefs, Stage.lister] (FS.mk [ "a" ]) 0 true
    ∧ main (World.mk [ "", "photo", "1", "1", "" ] "/w" Listing.permissionDenied
          (FS.mk [ "a" ]) (fun _ _ => false))
        = MainResult.mk [Stage.prefs, Stage.lister] (FS.mk [ "a" ]) 0 true
    ∧ main (World.mk [ "", "photo", "1", "1", "" ] "/w" (Listing.ok [])
          (FS.mk [ "a" ]) (fun _ _ => false))
        = MainResult.mk [Stage.prefs, Stage.lister] (FS.mk [ "a" ]) 0 true :=
  C10_error_and_empty_agree [ "", "photo", "1", "1", "" ] "/w" (FS.mk [ "a" ])
    (fun _ _ => false) (Prefs.mk "/w" "photo" 1 1 "") [] [] (by decide) (by decide)

/-- C4 counterexample: the raw confirmation input " y " is not
case-insensitively equal to "y" (its lowercase form still carries the
spaces), yet the gate returns true — the code strips whitespace before
comparing — and the pipeline proceeds into the Renamer, mutating the
directory and reporting success count 1, contradicting the claim as
stated. -/
theorem C4_confirm_gate_counterexample :
    pyLower " y " ≠ "y"
    ∧ preview_confirm " y " = true
    ∧ main (World.mk [ "", "photo", "1", "1", "", " y " ] "/work"
          (Listing.ok [ DirEntry.mk "x.png" true ]) (FS.mk [ "x.png" ]) (fun _ _ => false))
        = MainResult.mk [Stage.prefs, Stage.lister, Stage.preview, Stage.renamer]
            (FS.mk [ "photo_1.png" ]) 1 false := by
  refine ⟨by decide, by decide, by decide⟩

/-- C4 (amended): for every confirmation input whose whitespace-trimmed,
lowercased form differs from "y" (including blank and "n"), the
Preview/Confirm gate returns false and the pipeline halts before the
Renamer runs: no stage beyond the preview is entered, the directory state
is unchanged, and the success count is 0. -/
theorem C4_decline_halts_pipeline (inputs : List String) (cwd : String) (listing : Listing)
    (fs : FS) (err : String → String → Bool) (p : Prefs) (reply : String)
    (rest2 : List String) (files : List String)
    (hpref : get_user_preferences inputs cwd = PrefResult.ok p (reply :: rest2))
    (hfiles : get_files_to_rename listing p.extension_filter = some files)
    (hne : files ≠ [])
    (hreply : pyLower (pyStrip reply) ≠ "y") :
    preview_confirm reply = false
    ∧ main (World.mk inputs cwd listing fs err)
        = MainResult.mk [Stage.prefs, Stage.lister, Stage.preview] fs 0 false
    ∧ Stage.renamer ∉ (main (World.mk inputs cwd listing fs err)).stages
    ∧ (main (World.mk inputs cwd listing fs err)).fs = fs
    ∧ (main (World.mk inputs cwd listing fs err)).renamed_count = 0 := by
  have hconf : preview_confirm reply = false := by
    unfold preview_confirm
    exact beq_eq_false_iff_ne.mpr hreply
  have hie : files.isEmpty = false := by
    cases files with
    | nil => exact absurd rfl hne
    | cons a t => rfl
  have hmain : main (World.mk inputs cwd listing fs err)
      = MainResult.mk [Stage.prefs, Stage.lister, Stage.preview] fs 0 false := by
    simp [main, hpref, hfiles, hie, hconf]
  exact ⟨hconf, hmain, by rw [hmain]; simp, by rw [hmain], by rw [hmain]⟩

/-- C4 witness: the amended decline theorem instantiated with the
confirmation input "n". -/
theorem C4_decline_halts_pipeline_witness :
    preview_confirm "n" = false
    ∧ main (World.mk [ "", "photo", "1", "1", "", "n" ] "/work"
          (Listing.ok [ DirEntry.mk "x.png" true ]) (FS.mk [ "x.png" ]) (fun _ _ => false))
        = MainResult.mk [Stage.prefs, Stage.lister, Stage.preview] (FS.mk [ "x.png" ]) 0 false := by
  have h := C4_decline_halts_pipeline [ "", "photo", "1", "1", "", "n" ] "/work"
    (Listing.ok [ DirEntry.mk "x.png" true ]) (FS.mk [ "x.png" ]) (fun _ _ => false)
    (Prefs.mk "/work" "photo" 1 1 "") "n" [] [ "x.png" ]
    (by decide) (by decide) (by decide) (by decide)
  exact ⟨h.1, h.2.1⟩

end FileRenamer
